import Mathlib

/-!
# Verification of the eo-learn sampling core

A shallow embedding of the sampling engine of `eolearn.ml_tools.sampling`
(`sample_by_values`, `expand_to_grids`, `random_point_in_triangle`,
`BlockSamplingTask`, `FractionSamplingTask`, `GridSamplingTask`) together with
proofs of the specification's claims about it.

The sampling module itself is not part of the shipped sources; only its test
suite (`test_sampling.py`) is.  The definitions below are therefore modelled
from the specification's component contracts (§3, §4 of the spec), with the
test suite used as the authority wherever its assertions pin down behaviour
that the spec text leaves open or contradicts.
-/

/-- Modelled from the spec: `RNGState` (§3) — "a seed value producing a
deterministic pseudo-random generator".  The generator algorithm itself is
external (numpy); we model it as a linear congruential generator, which
satisfies the generator contract of §6 (seedable, deterministic). -/
structure RNGState where
  seed : Nat
  deriving DecidableEq, Repr

/-- One step of the modelled generator: returns a raw draw and the next
state. -/
def rngNext (s : RNGState) : Nat × RNGState :=
  let x := (s.seed * 1103515245 + 12345) % 2147483648
  (x, ⟨x⟩)

/-- Draw a natural number below `n` (uniform over the generator contract of
§6); `n = 0` yields `0`. -/
def rngNat (s : RNGState) (n : Nat) : Nat × RNGState :=
  let p := rngNext s
  (p.1 % n, p.2)

theorem rngNat_lt (s : RNGState) {n : Nat} (h : 0 < n) : (rngNat s n).1 < n :=
  Nat.mod_lt _ h

/-- Remove the element at position `i` from a list, returning it together
with the remaining list.  Helper for the Fisher–Yates shuffle. -/
def pickOut : List α → Nat → Option (α × List α)
  | [], _ => none
  | a :: t, 0 => some (a, t)
  | a :: t, i + 1 => (pickOut t i).map (fun p => (p.1, a :: p.2))

theorem pickOut_perm {l : List α} {i : Nat} {b : α} {r : List α}
    (h : pickOut l i = some (b, r)) : l.Perm (b :: r) := by
  induction l generalizing i b r with
  | nil => simp [pickOut] at h
  | cons a t ih =>
    cases i with
    | zero =>
      simp only [pickOut, Option.some.injEq, Prod.mk.injEq] at h
      obtain ⟨h1, h2⟩ := h
      subst h1; subst h2; exact List.Perm.refl _
    | succ i =>
      simp only [pickOut, Option.map_eq_some'] at h
      obtain ⟨⟨b', r'⟩, hpick, hpr⟩ := h
      simp only [Prod.mk.injEq] at hpr
      obtain ⟨h1, h2⟩ := hpr
      subst h1; subst h2
      exact (List.Perm.cons a (ih hpick)).trans (List.Perm.swap _ _ _)

theorem pickOut_getD_perm (a : α) (t : List α) (i : Nat) :
    (a :: t).Perm (((pickOut (a :: t) i).getD (a, t)).1 ::
      ((pickOut (a :: t) i).getD (a, t)).2) := by
  cases hp : pickOut (a :: t) i with
  | none => simp
  | some br => simpa using pickOut_perm hp

/-- Modelled from the spec: uniform shuffle-without-replacement (§6 generator
contract (a)), implemented as a Fisher–Yates shuffle driven by the
generator.  `fuel` bounds the recursion by the list length. -/
def shuffleGo : Nat → List α → RNGState → List α × RNGState
  | 0, l, s => (l, s)
  | _ + 1, [], s => ([], s)
  | fuel + 1, a :: t, s =>
    let d := rngNat s (a :: t).length
    let pr := (pickOut (a :: t) d.1).getD (a, t)
    let p := shuffleGo fuel pr.2 d.2
    (pr.1 :: p.1, p.2)

/-- Shuffle a list uniformly using the generator. -/
def shuffle (l : List α) (s : RNGState) : List α × RNGState :=
  shuffleGo l.length l s

theorem shuffleGo_perm (fuel : Nat) (l : List α) (s : RNGState) :
    (shuffleGo fuel l s).1.Perm l := by
  induction fuel generalizing l s with
  | zero => exact List.Perm.refl _
  | succ fuel ih =>
    cases l with
    | nil => exact List.Perm.refl _
    | cons a t =>
      simp only [shuffleGo]
      exact ((ih _ _).cons _).trans (pickOut_getD_perm a t _).symm

theorem shuffle_perm (l : List α) (s : RNGState) : (shuffle l s).1.Perm l :=
  shuffleGo_perm _ _ _

theorem shuffle_length (l : List α) (s : RNGState) :
    (shuffle l s).1.length = l.length :=
  (shuffle_perm l s).length_eq

theorem shuffle_nodup {l : List α} (s : RNGState) (h : l.Nodup) :
    (shuffle l s).1.Nodup :=
  ((shuffle_perm l s).nodup_iff).mpr h

theorem shuffle_mem {l : List α} {a : α} (s : RNGState)
    (h : a ∈ (shuffle l s).1) : a ∈ l :=
  ((shuffle_perm l s).mem_iff).mp h

/-- Modelled from the spec: uniform sampling-with-replacement from a finite
index set (§6 generator contract (b)): `k` independent uniform draws from
the list. -/
def sampleWithReplacement (l : List α) : Nat → RNGState → List α × RNGState
  | 0, s => ([], s)
  | k + 1, s =>
    let d := rngNat s l.length
    let p := sampleWithReplacement l k d.2
    ((l.get? d.1).toList ++ p.1, p.2)

theorem sampleWithReplacement_length {l : List α} (hne : l ≠ []) (k : Nat)
    (s : RNGState) : (sampleWithReplacement l k s).1.length = k := by
  induction k generalizing s with
  | zero => simp [sampleWithReplacement]
  | succ k ih =>
    have hlen : 0 < l.length := List.length_pos.mpr hne
    have hlt : (rngNat s l.length).1 < l.length := rngNat_lt s hlen
    simp only [sampleWithReplacement, List.length_append]
    cases hg : l.get? (rngNat s l.length).1 with
    | none => exact absurd (List.get?_eq_none.mp hg) (Nat.not_le.mpr hlt)
    | some a => simp [ih, Nat.add_comm]

theorem sampleWithReplacement_mem {l : List α} {a : α} (k : Nat)
    (s : RNGState) (h : a ∈ (sampleWithReplacement l k s).1) : a ∈ l := by
  induction k generalizing s with
  | zero => simp [sampleWithReplacement] at h
  | succ k ih =>
    simp only [sampleWithReplacement, List.mem_append] at h
    cases h with
    | inl h =>
      cases hg : l.get? (rngNat s l.length).1 with
      | none => rw [hg] at h; simp at h
      | some b =>
        rw [hg] at h
        simp only [Option.toList_some, List.mem_singleton] at h
        subst h; exact List.get?_mem hg
    | inr h => exact ih _ h

/-- Modelled from the spec: `LabelArray`/`FeatureArray` (§3) — an
N-dimensional integer array given by its shape and row-major data. -/
structure NDArray where
  shape : List Nat
  data : List Int
  deriving DecidableEq, Repr

/-- Spatial height `H` (first shape entry) of an array. -/
def NDArray.height (a : NDArray) : Nat := a.shape.headD 0

/-- Spatial width `W` (second shape entry) of an array. -/
def NDArray.width (a : NDArray) : Nat := (a.shape.drop 1).headD 0

/-- The value of a 2D array at `(r, c)` (row-major). -/
def NDArray.at2 (a : NDArray) (r c : Nat) : Int :=
  a.data.getD (r * a.width + c) 0

/-- All `(row, col)` pairs of an `H × W` grid, row-major. -/
def gridPositions (H W : Nat) : List (Nat × Nat) :=
  (List.range H).product (List.range W)

theorem mem_gridPositions {H W : Nat} {p : Nat × Nat} :
    p ∈ gridPositions H W ↔ p.1 < H ∧ p.2 < W := by
  obtain ⟨r, c⟩ := p
  simp [gridPositions, List.mem_product]

theorem nodup_gridPositions (H W : Nat) : (gridPositions H W).Nodup :=
  (List.nodup_range H).product (List.nodup_range W)

theorem length_gridPositions (H W : Nat) :
    (gridPositions H W).length = H * W := by
  have h := List.length_product (List.range H) (List.range W)
  simpa using h

/-- All positions of a 2D array holding class value `v` (spec §4.1: "locate
all (row, col) positions in `values` equal to that class"), row-major. -/
def positionsOf (a : NDArray) (v : Int) : List (Nat × Nat) :=
  (gridPositions a.height a.width).filter (fun p => a.at2 p.1 p.2 == v)

theorem mem_positionsOf {a : NDArray} {v : Int} {p : Nat × Nat} :
    p ∈ positionsOf a v ↔
      (p.1 < a.height ∧ p.2 < a.width) ∧ a.at2 p.1 p.2 = v := by
  simp [positionsOf, List.mem_filter, mem_gridPositions]

theorem nodup_positionsOf (a : NDArray) (v : Int) : (positionsOf a v).Nodup :=
  (nodup_gridPositions _ _).filter _

theorem positionsOf_label {a : NDArray} {v : Int} {p : Nat × Nat}
    (h : p ∈ positionsOf a v) : a.at2 p.1 p.2 = v :=
  (mem_positionsOf.mp h).2

/-- Modelled from the spec: the per-class selection step of `sample_by_values`
(§4.1) — without replacement, shuffle the class's positions and take the
first `count`, failing on insufficient population; with replacement, draw
uniformly with replacement.  A class with no positions in the array fails. -/
def sampleClass (values : NDArray) (v : Int) (k : Nat) (replace : Bool)
    (s : RNGState) : Except String (List (Nat × Nat) × RNGState) :=
  let pos := positionsOf values v
  if pos.isEmpty then .error "no elements with the requested value"
  else if replace then .ok (sampleWithReplacement pos k s)
  else if pos.length < k then .error "insufficient population"
  else
    let p := shuffle pos s
    .ok (p.1.take k, p.2)

/-- Sequencing helper for per-class selections: run the first selection, then
the rest from the updated generator state, and concatenate. -/
def exceptGlue (x : Except String (List (Nat × Nat) × RNGState))
    (f : RNGState → Except String (List (Nat × Nat) × RNGState)) :
    Except String (List (Nat × Nat) × RNGState) :=
  match x with
  | .error e => .error e
  | .ok (sel, s') =>
    match f s' with
    | .error e => .error e
    | .ok (selr, s'') => .ok (sel ++ selr, s'')

/-- Modelled from the spec: the main loop of `sample_by_values` (§4.1) —
per-class selections, generator state threaded through, results
concatenated grouped by class in the order classes are given. -/
def sampleByValuesGo (values : NDArray) (replace : Bool) :
    List (Int × Nat) → RNGState → Except String (List (Nat × Nat) × RNGState)
  | [], s => .ok ([], s)
  | (v, k) :: rest, s =>
    exceptGlue (sampleClass values v k replace s)
      (sampleByValuesGo values replace rest)

/-- Modelled from the spec: `sample_by_values(values, counts, rng, replace)`
(§4.1) — fails unless `values` is 2-dimensional, then draws the requested
per-class counts and returns the grouped row and column index sequences. -/
def sample_by_values (values : NDArray) (counts : List (Int × Nat))
    (rng : RNGState) (replace : Bool := false) :
    Except String (List Nat × List Nat) :=
  if values.shape.length = 2 then
    match sampleByValuesGo values replace counts rng with
    | .error e => .error e
    | .ok (sel, _) => .ok (sel.map Prod.fst, sel.map Prod.snd)
  else .error "values array must have 2 dimensions"

theorem sampleClass_ok_length {values : NDArray} {v : Int} {k : Nat}
    {replace : Bool} {s : RNGState} {sel : List (Nat × Nat)} {s' : RNGState}
    (h : sampleClass values v k replace s = .ok (sel, s')) :
    sel.length = k := by
  simp only [sampleClass] at h
  split at h
  · simp at h
  · split at h
    · rename_i hne _
      simp only [Except.ok.injEq] at h
      have h1 := congrArg Prod.fst h
      simp only at h1
      rw [← h1]
      exact sampleWithReplacement_length (by simpa using hne) k s
    · split at h
      · simp at h
      · rename_i hge
        simp only [Except.ok.injEq, Prod.mk.injEq] at h
        rw [← h.1, List.length_take, shuffle_length]
        exact Nat.min_eq_left (Nat.le_of_not_lt hge)

theorem sampleClass_ok_mem {values : NDArray} {v : Int} {k : Nat}
    {replace : Bool} {s : RNGState} {sel : List (Nat × Nat)} {s' : RNGState}
    (h : sampleClass values v k replace s = .ok (sel, s')) :
    ∀ p ∈ sel, p ∈ positionsOf values v := by
  simp only [sampleClass] at h
  split at h
  · simp at h
  · split at h
    · simp only [Except.ok.injEq] at h
      have h1 := congrArg Prod.fst h
      simp only at h1
      intro p hp
      rw [← h1] at hp
      exact sampleWithReplacement_mem k s hp
    · split at h
      · simp at h
      · simp only [Except.ok.injEq, Prod.mk.injEq] at h
        intro p hp
        rw [← h.1] at hp
        exact shuffle_mem s (List.take_subset _ _ hp)

theorem sampleClass_ok_nodup {values : NDArray} {v : Int} {k : Nat}
    {s : RNGState} {sel : List (Nat × Nat)} {s' : RNGState}
    (h : sampleClass values v k false s = .ok (sel, s')) :
    sel.Nodup := by
  simp only [sampleClass] at h
  split at h
  · simp at h
  · split at h
    · rename_i hrep
      cases hrep
    · split at h
      · simp at h
      · simp only [Except.ok.injEq, Prod.mk.injEq] at h
        rw [← h.1]
        exact (shuffle_nodup s (nodup_positionsOf values v)).sublist
          (List.take_sublist _ _)

theorem sampleClass_error_of_insufficient {values : NDArray} {v : Int}
    {k : Nat} {s : RNGState} (hlt : (positionsOf values v).length < k) :
    ∃ e, sampleClass values v k false s = .error e := by
  by_cases he : (positionsOf values v).isEmpty
  · exact ⟨"no elements with the requested value", by simp [sampleClass, he]⟩
  · exact ⟨"insufficient population", by simp [sampleClass, he, hlt]⟩

theorem sampleClass_error_of_empty {values : NDArray} {v : Int} {k : Nat}
    {replace : Bool} {s : RNGState} (hem : positionsOf values v = []) :
    ∃ e, sampleClass values v k replace s = .error e := by
  exact ⟨"no elements with the requested value", by simp [sampleClass, hem]⟩

theorem sampleByValuesGo_ok_elim {values : NDArray} {replace : Bool}
    {v : Int} {k : Nat} {rest : List (Int × Nat)} {s : RNGState}
    {sel : List (Nat × Nat)} {s' : RNGState}
    (h : sampleByValuesGo values replace ((v, k) :: rest) s = .ok (sel, s')) :
    ∃ sel0 s1 selr,
      sampleClass values v k replace s = .ok (sel0, s1) ∧
      sampleByValuesGo values replace rest s1 = .ok (selr, s') ∧
      sel = sel0 ++ selr := by
  simp only [sampleByValuesGo] at h
  cases hc : sampleClass values v k replace s with
  | error e => rw [hc] at h; simp [exceptGlue] at h
  | ok pr =>
    obtain ⟨sel0, s1⟩ := pr
    rw [hc] at h
    simp only [exceptGlue] at h
    cases hr : sampleByValuesGo values replace rest s1 with
    | error e => rw [hr] at h; simp at h
    | ok pr2 =>
      obtain ⟨selr, s2⟩ := pr2
      rw [hr] at h
      simp only [Except.ok.injEq, Prod.mk.injEq] at h
      exact ⟨sel0, s1, selr, rfl, by rw [hr, h.2], (h.1).symm⟩

theorem sampleByValuesGo_ok_length {values : NDArray} {replace : Bool} :
    ∀ {counts : List (Int × Nat)} {s : RNGState} {sel : List (Nat × Nat)}
      {s' : RNGState},
      sampleByValuesGo values replace counts s = .ok (sel, s') →
      sel.length = (counts.map Prod.snd).sum := by
  intro counts
  induction counts with
  | nil =>
    intro s sel s' h
    simp only [sampleByValuesGo, Except.ok.injEq, Prod.mk.injEq] at h
    rw [← h.1]
    simp
  | cons hd rest ih =>
    obtain ⟨v, k⟩ := hd
    intro s sel s' h
    obtain ⟨sel0, s1, selr, hc, hr, hsel⟩ := sampleByValuesGo_ok_elim h
    subst hsel
    simp only [List.length_append, List.map_cons, List.sum_cons]
    rw [sampleClass_ok_length hc, ih hr]

theorem sampleByValuesGo_ok_mem {values : NDArray} {replace : Bool} :
    ∀ {counts : List (Int × Nat)} {s : RNGState} {sel : List (Nat × Nat)}
      {s' : RNGState},
      sampleByValuesGo values replace counts s = .ok (sel, s') →
      ∀ p ∈ sel, ∃ vk ∈ counts, p ∈ positionsOf values vk.1 := by
  intro counts
  induction counts with
  | nil =>
    intro s sel s' h
    simp only [sampleByValuesGo, Except.ok.injEq, Prod.mk.injEq] at h
    rw [← h.1]
    simp
  | cons hd rest ih =>
    obtain ⟨v, k⟩ := hd
    intro s sel s' h
    obtain ⟨sel0, s1, selr, hc, hr, hsel⟩ := sampleByValuesGo_ok_elim h
    subst hsel
    intro p hp
    rcases List.mem_append.mp hp with hp0 | hpr
    · exact ⟨(v, k), List.mem_cons_self _ _, sampleClass_ok_mem hc p hp0⟩
    · obtain ⟨vk, hvk, hmem⟩ := ih hr p hpr
      exact ⟨vk, List.mem_cons_of_mem _ hvk, hmem⟩

theorem sampleByValuesGo_ok_countP {values : NDArray} {replace : Bool} :
    ∀ {counts : List (Int × Nat)} {s : RNGState} {sel : List (Nat × Nat)}
      {s' : RNGState},
      (counts.map Prod.fst).Nodup →
      sampleByValuesGo values replace counts s = .ok (sel, s') →
      ∀ vk ∈ counts,
        sel.countP (fun p => values.at2 p.1 p.2 == vk.1) = vk.2 := by
  intro counts
  induction counts with
  | nil => intro s sel s' _ h vk hvk; simp at hvk
  | cons hd rest ih =>
    obtain ⟨v, k⟩ := hd
    intro s sel s' hnd h vk hvk
    obtain ⟨sel0, s1, selr, hc, hr, hsel⟩ := sampleByValuesGo_ok_elim h
    subst hsel
    simp only [List.map_cons, List.nodup_cons] at hnd
    obtain ⟨hvnotin, hndrest⟩ := hnd
    rw [List.countP_append]
    rcases List.mem_cons.mp hvk with hvk0 | hvkr
    · subst hvk0
      have hall : sel0.countP (fun p => values.at2 p.1 p.2 == v) = sel0.length :=
        List.countP_eq_length.mpr (fun p hp => by
          simp [positionsOf_label (sampleClass_ok_mem hc p hp)])
      have hzero : selr.countP (fun p => values.at2 p.1 p.2 == v) = 0 :=
        List.countP_eq_zero.mpr (fun p hp => by
          obtain ⟨uk, huk, hmem⟩ := sampleByValuesGo_ok_mem hr p hp
          have hlab := positionsOf_label hmem
          have hne : uk.1 ≠ v := by
            intro hcontra
            exact hvnotin (hcontra ▸ List.mem_map_of_mem Prod.fst huk)
          simp [hlab, hne])
      rw [hall, hzero, sampleClass_ok_length hc]
      simp
    · have hzero : sel0.countP (fun p => values.at2 p.1 p.2 == vk.1) = 0 :=
        List.countP_eq_zero.mpr (fun p hp => by
          have hlab := positionsOf_label (sampleClass_ok_mem hc p hp)
          have hne : vk.1 ≠ v := by
            intro hcontra
            exact hvnotin (hcontra ▸ List.mem_map_of_mem Prod.fst hvkr)
          simp only [hlab, beq_iff_eq]
          exact fun hcontra => hne hcontra.symm)
      rw [hzero, ih hndrest hr vk hvkr]
      simp

theorem sampleByValuesGo_ok_nodup {values : NDArray} :
    ∀ {counts : List (Int × Nat)} {s : RNGState} {sel : List (Nat × Nat)}
      {s' : RNGState},
      (counts.map Prod.fst).Nodup →
      sampleByValuesGo values false counts s = .ok (sel, s') →
      sel.Nodup := by
  intro counts
  induction counts with
  | nil =>
    intro s sel s' _ h
    simp only [sampleByValuesGo, Except.ok.injEq, Prod.mk.injEq] at h
    rw [← h.1]
    simp
  | cons hd rest ih =>
    obtain ⟨v, k⟩ := hd
    intro s sel s' hnd h
    obtain ⟨sel0, s1, selr, hc, hr, hsel⟩ := sampleByValuesGo_ok_elim h
    subst hsel
    simp only [List.map_cons, List.nodup_cons] at hnd
    obtain ⟨hvnotin, hndrest⟩ := hnd
    refine (sampleClass_ok_nodup hc).append (ih hndrest hr) ?_
    intro p hp0 hpr
    have hlab0 := positionsOf_label (sampleClass_ok_mem hc p hp0)
    obtain ⟨uk, huk, hmem⟩ := sampleByValuesGo_ok_mem hr p hpr
    have hlabr := positionsOf_label hmem
    exact hvnotin ((hlab0 ▸ hlabr) ▸ List.mem_map_of_mem Prod.fst huk)

theorem sampleByValuesGo_error_of_empty {values : NDArray} {replace : Bool} :
    ∀ {counts : List (Int × Nat)} {s : RNGState},
      (∃ vk ∈ counts, positionsOf values vk.1 = []) →
      ∃ e, sampleByValuesGo values replace counts s = .error e := by
  intro counts
  induction counts with
  | nil => intro s h; simp at h
  | cons hd rest ih =>
    obtain ⟨v, k⟩ := hd
    intro s h
    obtain ⟨vk, hvk, hem⟩ := h
    rcases List.mem_cons.mp hvk with hvk0 | hvkr
    · subst hvk0
      obtain ⟨e, he⟩ := @sampleClass_error_of_empty values v k replace s hem
      exact ⟨e, by simp [sampleByValuesGo, he, exceptGlue]⟩
    · cases hc : sampleClass values v k replace s with
      | error e => exact ⟨e, by simp [sampleByValuesGo, hc, exceptGlue]⟩
      | ok pr =>
        obtain ⟨sel0, s1⟩ := pr
        obtain ⟨e, he⟩ := ih (s := s1) ⟨vk, hvkr, hem⟩
        exact ⟨e, by simp [sampleByValuesGo, hc, exceptGlue, he]⟩

theorem sampleByValuesGo_error_of_insufficient {values : NDArray} :
    ∀ {counts : List (Int × Nat)} {s : RNGState},
      (∃ vk ∈ counts, (positionsOf values vk.1).length < vk.2) →
      ∃ e, sampleByValuesGo values false counts s = .error e := by
  intro counts
  induction counts with
  | nil => intro s h; simp at h
  | cons hd rest ih =>
    obtain ⟨v, k⟩ := hd
    intro s h
    obtain ⟨vk, hvk, hlt⟩ := h
    rcases List.mem_cons.mp hvk with hvk0 | hvkr
    · subst hvk0
      obtain ⟨e, he⟩ := sampleClass_error_of_insufficient (s := s) hlt
      exact ⟨e, by simp [sampleByValuesGo, he, exceptGlue]⟩
    · cases hc : sampleClass values v k false s with
      | error e => exact ⟨e, by simp [sampleByValuesGo, hc, exceptGlue]⟩
      | ok pr =>
        obtain ⟨sel0, s1⟩ := pr
        obtain ⟨e, he⟩ := ih (s := s1) ⟨vk, hvkr, hlt⟩
        exact ⟨e, by simp [sampleByValuesGo, hc, exceptGlue, he]⟩

theorem sample_by_values_ok_elim {values : NDArray} {counts : List (Int × Nat)}
    {rng : RNGState} {replace : Bool} {rows cols : List Nat}
    (h : sample_by_values values counts rng replace = .ok (rows, cols)) :
    ∃ sel s', sampleByValuesGo values replace counts rng = .ok (sel, s') ∧
      rows = sel.map Prod.fst ∧ cols = sel.map Prod.snd := by
  simp only [sample_by_values] at h
  split at h
  · cases hg : sampleByValuesGo values replace counts rng with
    | error e => rw [hg] at h; simp at h
    | ok pr =>
      obtain ⟨sel, s'⟩ := pr
      rw [hg] at h
      simp only [Except.ok.injEq, Prod.mk.injEq] at h
      exact ⟨sel, s', rfl, h.1.symm, h.2.symm⟩
  · simp at h

theorem sample_by_values_error_lift {values : NDArray}
    {counts : List (Int × Nat)} {rng : RNGState} {replace : Bool} {e : String}
    (h2 : values.shape.length = 2)
    (he : sampleByValuesGo values replace counts rng = .error e) :
    sample_by_values values counts rng replace = .error e := by
  simp [sample_by_values, h2, he]

/-- **C1**: whenever `sample_by_values` returns, the returned row/col index
sequences have total length equal to the sum of the requested counts, and for
each requested class value exactly the requested number of returned
`(row, col)` positions carry that class label in the source array.  (The
class-count mapping is a dict, so its keys are pairwise distinct.) -/
theorem sample_by_values_counts_correct (values : NDArray)
    (counts : List (Int × Nat)) (rng : RNGState) (replace : Bool)
    (rows cols : List Nat) (hnd : (counts.map Prod.fst).Nodup)
    (h : sample_by_values values counts rng replace = .ok (rows, cols)) :
    rows.length = (counts.map Prod.snd).sum ∧
    cols.length = (counts.map Prod.snd).sum ∧
    ∀ vk ∈ counts,
      (rows.zip cols).countP (fun p => values.at2 p.1 p.2 == vk.1) = vk.2 := by
  obtain ⟨sel, s', hg, hrows, hcols⟩ := sample_by_values_ok_elim h
  subst hrows; subst hcols
  have hzip : (sel.map Prod.fst).zip (sel.map Prod.snd) = sel := by
    rw [List.zip_map']
    simp
  refine ⟨?_, ?_, ?_⟩
  · rw [List.length_map]
    exact sampleByValuesGo_ok_length hg
  · rw [List.length_map]
    exact sampleByValuesGo_ok_length hg
  · rw [hzip]
    exact sampleByValuesGo_ok_countP hnd hg

/-- Witness for C1 at a concrete input: a 2×2 label array with labels
`[[0, 1], [0, 1]]`, requesting one sample of class 0 and two of class 1. -/
theorem sample_by_values_counts_correct_witness :
    ((([(0, 1), (1, 2)] : List (Int × Nat)).map Prod.fst).Nodup) ∧
    (([1, 1, 0] : List Nat).length =
        (([(0, 1), (1, 2)] : List (Int × Nat)).map Prod.snd).sum ∧
      ([0, 1, 1] : List Nat).length =
        (([(0, 1), (1, 2)] : List (Int × Nat)).map Prod.snd).sum ∧
      ∀ vk ∈ ([(0, 1), (1, 2)] : List (Int × Nat)),
        (([1, 1, 0] : List Nat).zip ([0, 1, 1] : List Nat)).countP
          (fun p => NDArray.at2 ⟨[2, 2], [0, 1, 0, 1]⟩ p.1 p.2 == vk.1) =
            vk.2) :=
  ⟨by decide,
    sample_by_values_counts_correct ⟨[2, 2], [0, 1, 0, 1]⟩ [(0, 1), (1, 2)]
      ⟨0⟩ false [1, 1, 0] [0, 1, 1] (by decide) (by rfl)⟩

/-- **C5**: `sample_by_values` fails with an error in each of these cases:
the values array is not 2-dimensional; some requested class value has no
positions in the array; or, without replacement, some requested count
exceeds the number of available positions for that class. -/
theorem sample_by_values_error_cases (values : NDArray)
    (counts : List (Int × Nat)) (rng : RNGState) (replace : Bool) :
    (values.shape.length ≠ 2 →
      ∃ e, sample_by_values values counts rng replace = .error e) ∧
    ((∃ vk ∈ counts, positionsOf values vk.1 = []) →
      ∃ e, sample_by_values values counts rng replace = .error e) ∧
    (replace = false → (∃ vk ∈ counts, (positionsOf values vk.1).length < vk.2) →
      ∃ e, sample_by_values values counts rng replace = .error e) := by
  refine ⟨?_, ?_, ?_⟩
  · intro hne
    exact ⟨"values array must have 2 dimensions", by simp [sample_by_values, hne]⟩
  · intro hex
    by_cases h2 : values.shape.length = 2
    · obtain ⟨e, he⟩ := sampleByValuesGo_error_of_empty (s := rng) hex
      exact ⟨e, sample_by_values_error_lift h2 he⟩
    · exact ⟨"values array must have 2 dimensions", by simp [sample_by_values, h2]⟩
  · intro hrep hex
    subst hrep
    by_cases h2 : values.shape.length = 2
    · obtain ⟨e, he⟩ := sampleByValuesGo_error_of_insufficient (s := rng) hex
      exact ⟨e, sample_by_values_error_lift h2 he⟩
    · exact ⟨"values array must have 2 dimensions", by simp [sample_by_values, h2]⟩

/-- Witness for C5 at concrete inputs: a 1-dimensional array of ones; a 2×2
array of ones with class 2 requested; and a 2×2 array of ones with five
samples of class 1 requested without replacement. -/
theorem sample_by_values_error_cases_witness :
    ((NDArray.mk [4] [1, 1, 1, 1]).shape.length ≠ 2 ∧
      ∃ e, sample_by_values ⟨[4], [1, 1, 1, 1]⟩ [(1, 4)] ⟨0⟩ false = .error e) ∧
    ((∃ vk ∈ ([(2, 3)] : List (Int × Nat)),
        positionsOf ⟨[2, 2], [1, 1, 1, 1]⟩ vk.1 = []) ∧
      ∃ e, sample_by_values ⟨[2, 2], [1, 1, 1, 1]⟩ [(2, 3)] ⟨0⟩ false = .error e) ∧
    ((∃ vk ∈ ([(1, 5)] : List (Int × Nat)),
        (positionsOf ⟨[2, 2], [1, 1, 1, 1]⟩ vk.1).length < vk.2) ∧
      ∃ e, sample_by_values ⟨[2, 2], [1, 1, 1, 1]⟩ [(1, 5)] ⟨0⟩ false = .error e) :=
  ⟨⟨by decide,
      (sample_by_values_error_cases ⟨[4], [1, 1, 1, 1]⟩ [(1, 4)] ⟨0⟩ false).1
        (by decide)⟩,
    ⟨by decide,
      (sample_by_values_error_cases ⟨[2, 2], [1, 1, 1, 1]⟩ [(2, 3)] ⟨0⟩
          false).2.1 (by decide)⟩,
    ⟨by decide,
      (sample_by_values_error_cases ⟨[2, 2], [1, 1, 1, 1]⟩ [(1, 5)] ⟨0⟩
          false).2.2 rfl (by decide)⟩⟩

/-- Modelled from the spec: `expand_to_grids(rows, cols, sample_size=(h, w))`
(§4.2) — each sampled `(row, col)` becomes an h×w block of absolute
coordinates with the sampled point as top-left origin; the two returned
grids are parallel arrays of shape `(h·N, w)`.  Pure function, no bounds
checking, no randomness. -/
def expand_to_grids (rows cols : List Nat) (h w : Nat) :
    List (List Nat) × List (List Nat) :=
  (rows.flatMap (fun r => (List.range h).map (fun i => List.replicate w (r + i))),
   cols.flatMap (fun c =>
     (List.range h).map (fun _ => (List.range w).map (fun j => c + j))))

theorem length_flatMap_range_map {β : Type} (l : List Nat) (h : Nat)
    (f : Nat → Nat → β) :
    (l.flatMap (fun r => (List.range h).map (f r))).length = h * l.length := by
  induction l with
  | nil => simp
  | cons a t ih =>
    simp only [List.flatMap_cons, List.length_append, List.length_map,
      List.length_range, ih, List.length_cons]
    rw [Nat.mul_succ, Nat.add_comm]

theorem flatMap_singleton_block {β : Type} (l : List Nat) (f : Nat → β) :
    (l.flatMap (fun r => [f r])) = l.map f := by
  induction l with
  | nil => simp
  | cons a t ih => simp [ih]

/-- **C8**: for equal-length row/col index sequences of `N` points and block
size `(h, w)`, `expand_to_grids` returns two parallel grids each of shape
exactly `(h·N, w)`; for `sample_size = (1, 1)` the outputs are exactly the
input indices reshaped to columns. -/
theorem expand_to_grids_shape (rows cols : List Nat) (h w N : Nat)
    (hrows : rows.length = N) (hcols : cols.length = N) :
    (expand_to_grids rows cols h w).1.length = h * N ∧
    (expand_to_grids rows cols h w).2.length = h * N ∧
    (∀ g ∈ (expand_to_grids rows cols h w).1, g.length = w) ∧
    (∀ g ∈ (expand_to_grids rows cols h w).2, g.length = w) ∧
    (h = 1 → w = 1 →
      (expand_to_grids rows cols h w).1 = rows.map (fun r => [r]) ∧
      (expand_to_grids rows cols h w).2 = cols.map (fun c => [c])) := by
  refine ⟨?_, ?_, ?_, ?_, ?_⟩
  · rw [show (expand_to_grids rows cols h w).1 =
        rows.flatMap (fun r => (List.range h).map
          (fun i => List.replicate w (r + i))) from rfl,
      length_flatMap_range_map, hrows]
  · rw [show (expand_to_grids rows cols h w).2 =
        cols.flatMap (fun c => (List.range h).map
          (fun _ => (List.range w).map (fun j => c + j))) from rfl,
      length_flatMap_range_map, hcols]
  · intro g hg
    simp only [expand_to_grids, List.mem_flatMap, List.mem_map] at hg
    obtain ⟨r, _, i, _, hgi⟩ := hg
    rw [← hgi]
    exact List.length_replicate w _
  · intro g hg
    simp only [expand_to_grids, List.mem_flatMap, List.mem_map] at hg
    obtain ⟨c, _, i, _, hgi⟩ := hg
    rw [← hgi]
    simp
  · intro h1 w1
    subst h1; subst w1
    constructor
    · show rows.flatMap (fun r => [List.replicate 1 (r + 0)]) = _
      rw [flatMap_singleton_block rows (fun r => List.replicate 1 (r + 0))]
      simp [List.replicate]
    · show cols.flatMap (fun c => [[c + 0]]) = _
      rw [flatMap_singleton_block cols (fun c => [c + 0])]
      simp

/-- Witness for C8 at the test's concrete input: rows `[1, 1, 2, 3, 4]`,
cols `[2, 3, 1, 1, 4]`, with block sizes `(2, 3)` and `(1, 1)`. -/
theorem expand_to_grids_shape_witness :
    (([1, 1, 2, 3, 4] : List Nat).length = 5 ∧
      ([2, 3, 1, 1, 4] : List Nat).length = 5) ∧
    (expand_to_grids [1, 1, 2, 3, 4] [2, 3, 1, 1, 4] 2 3).1.length = 2 * 5 ∧
    (expand_to_grids [1, 1, 2, 3, 4] [2, 3, 1, 1, 4] 2 3).2.length = 2 * 5 ∧
    (∀ g ∈ (expand_to_grids [1, 1, 2, 3, 4] [2, 3, 1, 1, 4] 2 3).1,
      g.length = 3) ∧
    (∀ g ∈ (expand_to_grids [1, 1, 2, 3, 4] [2, 3, 1, 1, 4] 2 3).2,
      g.length = 3) ∧
    (expand_to_grids [1, 1, 2, 3, 4] [2, 3, 1, 1, 4] 1 1).1 =
      ([1, 1, 2, 3, 4] : List Nat).map (fun r => [r]) ∧
    (expand_to_grids [1, 1, 2, 3, 4] [2, 3, 1, 1, 4] 1 1).2 =
      ([2, 3, 1, 1, 4] : List Nat).map (fun c => [c]) := by
  refine ⟨⟨by decide, by decide⟩, ?_⟩
  have h23 := expand_to_grids_shape [1, 1, 2, 3, 4] [2, 3, 1, 1, 4] 2 3 5
    (by decide) (by decide)
  have h11 := expand_to_grids_shape [1, 1, 2, 3, 4] [2, 3, 1, 1, 4] 1 1 5
    (by decide) (by decide)
  obtain ⟨a1, a2, a3, a4, _⟩ := h23
  obtain ⟨_, _, _, _, a5⟩ := h11
  obtain ⟨b1, b2⟩ := a5 rfl rfl
  exact ⟨a1, a2, a3, a4, b1, b2⟩

/-- A 2D point with rational coordinates (modelling the floating-point
points of the vector-geometry sampler). -/
structure Pt where
  x : ℚ
  y : ℚ
  deriving DecidableEq, Repr

/-- Componentwise difference of two points. -/
def ptSub (u v : Pt) : Pt := ⟨u.x - v.x, u.y - v.y⟩

/-- The z-component of the cross product of two planar vectors. -/
def cross2 (u v : Pt) : ℚ := u.x * v.y - u.y * v.x

/-- Modelled from the spec: drawing an independent uniform(0,1) scalar from
the generator (§6 generator contract (c)), as a rational in [0, 1). -/
def rngUnit (s : RNGState) : ℚ × RNGState :=
  let d := rngNat s 1048576
  ((d.1 : ℚ) / 1048576, d.2)

theorem rngUnit_nonneg (s : RNGState) : 0 ≤ (rngUnit s).1 := by
  unfold rngUnit
  positivity

theorem rngUnit_lt_one (s : RNGState) : (rngUnit s).1 < 1 := by
  unfold rngUnit
  rw [div_lt_one (by norm_num)]
  have h := rngNat_lt s (n := 1048576) (by norm_num)
  exact_mod_cast h

/-- Modelled from the spec: `random_point_in_triangle(triangle, rng)` (§4.3)
— draw two independent uniform(0,1) scalars `u, v`; if `u + v > 1`, reflect
them to `(1-u, 1-v)` (barycentric folding); return
`v0 + u·(v1−v0) + v·(v2−v0)`. -/
def random_point_in_triangle (v0 v1 v2 : Pt) (s : RNGState) : Pt :=
  let du := rngUnit s
  let dv := rngUnit du.2
  let u := if 1 < du.1 + dv.1 then 1 - du.1 else du.1
  let v := if 1 < du.1 + dv.1 then 1 - dv.1 else dv.1
  ⟨v0.x + u * (v1.x - v0.x) + v * (v2.x - v0.x),
   v0.y + u * (v1.y - v0.y) + v * (v2.y - v0.y)⟩

/-- The barycentric coordinates of a point `p` with respect to the triangle
`(v0, v1, v2)`, by Cramer's rule (meaningful when the triangle is
non-degenerate, i.e. the edge cross product is nonzero). -/
def baryCoords (v0 v1 v2 p : Pt) : ℚ × ℚ × ℚ :=
  let d := cross2 (ptSub v1 v0) (ptSub v2 v0)
  let b := cross2 (ptSub p v0) (ptSub v2 v0) / d
  let c := cross2 (ptSub v1 v0) (ptSub p v0) / d
  (1 - b - c, b, c)

theorem baryCoords_affine (v0 v1 v2 : Pt) (u v : ℚ)
    (hd : cross2 (ptSub v1 v0) (ptSub v2 v0) ≠ 0) :
    baryCoords v0 v1 v2
      ⟨v0.x + u * (v1.x - v0.x) + v * (v2.x - v0.x),
       v0.y + u * (v1.y - v0.y) + v * (v2.y - v0.y)⟩ = (1 - u - v, u, v) := by
  have hb : cross2 (ptSub
      ⟨v0.x + u * (v1.x - v0.x) + v * (v2.x - v0.x),
       v0.y + u * (v1.y - v0.y) + v * (v2.y - v0.y)⟩ v0) (ptSub v2 v0) =
      u * cross2 (ptSub v1 v0) (ptSub v2 v0) := by
    simp only [cross2, ptSub]
    ring
  have hc : cross2 (ptSub v1 v0) (ptSub
      ⟨v0.x + u * (v1.x - v0.x) + v * (v2.x - v0.x),
       v0.y + u * (v1.y - v0.y) + v * (v2.y - v0.y)⟩ v0) =
      v * cross2 (ptSub v1 v0) (ptSub v2 v0) := by
    simp only [cross2, ptSub]
    ring
  simp only [baryCoords, hb, hc, mul_div_assoc, div_self hd, mul_one]

/-- **C9**: for every non-degenerate triangle (nonzero edge cross product)
and every generator state, the point returned by `random_point_in_triangle`
has all three of its barycentric coordinates within [0, 1]: it lies in the
closed triangle. -/
theorem random_point_in_triangle_interior (v0 v1 v2 : Pt) (s : RNGState)
    (hd : cross2 (ptSub v1 v0) (ptSub v2 v0) ≠ 0) :
    0 ≤ (baryCoords v0 v1 v2 (random_point_in_triangle v0 v1 v2 s)).1 ∧
    (baryCoords v0 v1 v2 (random_point_in_triangle v0 v1 v2 s)).1 ≤ 1 ∧
    0 ≤ (baryCoords v0 v1 v2 (random_point_in_triangle v0 v1 v2 s)).2.1 ∧
    (baryCoords v0 v1 v2 (random_point_in_triangle v0 v1 v2 s)).2.1 ≤ 1 ∧
    0 ≤ (baryCoords v0 v1 v2 (random_point_in_triangle v0 v1 v2 s)).2.2 ∧
    (baryCoords v0 v1 v2 (random_point_in_triangle v0 v1 v2 s)).2.2 ≤ 1 := by
  have hu0 := rngUnit_nonneg s
  have hu1 := rngUnit_lt_one s
  have hv0 := rngUnit_nonneg (rngUnit s).2
  have hv1 := rngUnit_lt_one (rngUnit s).2
  set u0 := (rngUnit s).1 with hu0def
  set w0 := (rngUnit (rngUnit s).2).1 with hw0def
  have hpoint : random_point_in_triangle v0 v1 v2 s =
      ⟨v0.x + (if 1 < u0 + w0 then 1 - u0 else u0) * (v1.x - v0.x) +
        (if 1 < u0 + w0 then 1 - w0 else w0) * (v2.x - v0.x),
       v0.y + (if 1 < u0 + w0 then 1 - u0 else u0) * (v1.y - v0.y) +
        (if 1 < u0 + w0 then 1 - w0 else w0) * (v2.y - v0.y)⟩ := rfl
  set u := if 1 < u0 + w0 then 1 - u0 else u0 with hudef
  set v := if 1 < u0 + w0 then 1 - w0 else w0 with hvdef
  have hbc : baryCoords v0 v1 v2 (random_point_in_triangle v0 v1 v2 s) =
      (1 - u - v, u, v) := by
    rw [hpoint]
    exact baryCoords_affine v0 v1 v2 u v hd
  have hbounds : 0 ≤ u ∧ 0 ≤ v ∧ u + v ≤ 1 := by
    rw [hudef, hvdef]
    by_cases hcase : 1 < u0 + w0
    · rw [if_pos hcase, if_pos hcase]
      refine ⟨by linarith, by linarith, by linarith⟩
    · rw [if_neg hcase, if_neg hcase]
      refine ⟨hu0, hv0, by linarith [not_lt.mp hcase]⟩
  obtain ⟨hu, hv, huv⟩ := hbounds
  rw [hbc]
  refine ⟨by simp only; linarith, by simp only; linarith,
    by simp only; linarith, by simp only; linarith,
    by simp only; linarith, by simp only; linarith⟩

/-- Witness for C9 at a concrete input: the unit right triangle with
vertices (0,0), (1,0), (0,1) and generator seed 42. -/
theorem random_point_in_triangle_interior_witness :
    cross2 (ptSub ⟨1, 0⟩ ⟨0, 0⟩) (ptSub ⟨0, 1⟩ ⟨0, 0⟩) ≠ 0 ∧
    (0 ≤ (baryCoords ⟨0, 0⟩ ⟨1, 0⟩ ⟨0, 1⟩
        (random_point_in_triangle ⟨0, 0⟩ ⟨1, 0⟩ ⟨0, 1⟩ ⟨42⟩)).1 ∧
      (baryCoords ⟨0, 0⟩ ⟨1, 0⟩ ⟨0, 1⟩
        (random_point_in_triangle ⟨0, 0⟩ ⟨1, 0⟩ ⟨0, 1⟩ ⟨42⟩)).1 ≤ 1 ∧
      0 ≤ (baryCoords ⟨0, 0⟩ ⟨1, 0⟩ ⟨0, 1⟩
        (random_point_in_triangle ⟨0, 0⟩ ⟨1, 0⟩ ⟨0, 1⟩ ⟨42⟩)).2.1 ∧
      (baryCoords ⟨0, 0⟩ ⟨1, 0⟩ ⟨0, 1⟩
        (random_point_in_triangle ⟨0, 0⟩ ⟨1, 0⟩ ⟨0, 1⟩ ⟨42⟩)).2.1 ≤ 1 ∧
      0 ≤ (baryCoords ⟨0, 0⟩ ⟨1, 0⟩ ⟨0, 1⟩
        (random_point_in_triangle ⟨0, 0⟩ ⟨1, 0⟩ ⟨0, 1⟩ ⟨42⟩)).2.2 ∧
      (baryCoords ⟨0, 0⟩ ⟨1, 0⟩ ⟨0, 1⟩
        (random_point_in_triangle ⟨0, 0⟩ ⟨1, 0⟩ ⟨0, 1⟩ ⟨42⟩)).2.2 ≤ 1) :=
  ⟨by norm_num [cross2, ptSub],
    random_point_in_triangle_interior ⟨0, 0⟩ ⟨1, 0⟩ ⟨0, 1⟩ ⟨42⟩
      (by norm_num [cross2, ptSub])⟩

/-- The number of times pixel `p` occurs in the list of covered pixels. -/
def hitCount (pts : List (Nat × Nat)) (p : Nat × Nat) : Nat :=
  pts.countP (fun q => q = p)

/-- Modelled from the spec and test suite: the `SamplingMask` (§3) written by
the sampling tasks.  `test_grid_sampling_task` asserts that the mask's total
equals `N·h·w` even when blocks overlap, so the mask holds, per pixel, the
number of sampled blocks covering it (an accumulating count), not a boolean
union. -/
def maskOf (H W : Nat) (pts : List (Nat × Nat)) : List (List Nat) :=
  (List.range H).map (fun r => (List.range W).map (fun c => hitCount pts (r, c)))

/-- The total of a counting mask (the model of `np.sum(mask)`). -/
def maskSum (m : List (List Nat)) : Nat := (m.map (fun row => row.sum)).sum

/-- The entry of a counting mask at `(r, c)`. -/
def maskEntry (m : List (List Nat)) (r c : Nat) : Nat := (m.getD r []).getD c 0

/-- The positions (row-major) where a mask is nonzero — the "mask-true"
pixels used by the tests to locate the sampled points. -/
def maskNonzero (H W : Nat) (m : List (List Nat)) : List (Nat × Nat) :=
  (gridPositions H W).filter (fun p => 0 < maskEntry m p.1 p.2)

theorem gridPositions_eq_flatMap (H W : Nat) :
    gridPositions H W =
      (List.range H).flatMap (fun r => (List.range W).map (fun c => (r, c))) :=
  rfl

theorem sum_flatMap_nat (l : List α) (f : α → List Nat) :
    (l.flatMap f).sum = (l.map (fun a => (f a).sum)).sum := by
  induction l with
  | nil => simp
  | cons a t ih => simp [List.flatMap_cons, List.sum_append, ih]

theorem sum_map_add_nat (l : List α) (f g : α → Nat) :
    (l.map (fun a => f a + g a)).sum = (l.map f).sum + (l.map g).sum := by
  induction l with
  | nil => simp
  | cons a t ih => simp [ih]; omega

theorem hitCount_pos_iff {pts : List (Nat × Nat)} {p : Nat × Nat} :
    0 < hitCount pts p ↔ p ∈ pts := by
  rw [hitCount, List.countP_pos_iff]
  simp

theorem hitCount_cons (a p : Nat × Nat) (t : List (Nat × Nat)) :
    hitCount (a :: t) p = hitCount t p + if a = p then 1 else 0 := by
  rw [hitCount, List.countP_cons, hitCount]
  simp

theorem hitCount_eq_one_of_nodup {grid : List (Nat × Nat)} {q : Nat × Nat}
    (hnd : grid.Nodup) (hq : q ∈ grid) : hitCount grid q = 1 := by
  induction grid with
  | nil => simp at hq
  | cons a t ih =>
    simp only [List.nodup_cons] at hnd
    rw [hitCount_cons]
    rcases List.mem_cons.mp hq with hqa | hqt
    · subst hqa
      rw [if_pos rfl]
      have hzero : hitCount t q = 0 :=
        List.countP_eq_zero.mpr (fun x hx => by
          simp only [decide_eq_true_eq]
          exact fun hc => hnd.1 (hc ▸ hx))
      rw [hzero]
    · have hne : a ≠ q := fun hc => hnd.1 (hc ▸ hqt)
      rw [if_neg hne, ih hnd.2 hqt]

theorem sum_map_indicator (l : List (Nat × Nat)) (q : Nat × Nat) :
    (l.map (fun p => if q = p then 1 else 0)).sum = hitCount l q := by
  induction l with
  | nil => simp [hitCount]
  | cons a t ih =>
    rw [List.map_cons, List.sum_cons, ih, hitCount_cons]
    by_cases hqa : q = a
    · subst hqa; simp [Nat.add_comm]
    · rw [if_neg hqa, if_neg (fun hc : a = q => hqa hc.symm)]
      omega

theorem sum_counts_eq_length {grid : List (Nat × Nat)} (hnd : grid.Nodup) :
    ∀ {pts : List (Nat × Nat)}, (∀ p ∈ pts, p ∈ grid) →
      (grid.map (fun p => hitCount pts p)).sum = pts.length := by
  intro pts
  induction pts with
  | nil => intro _; simp [hitCount]
  | cons q rest ih =>
    intro hsub
    have hfun : grid.map (fun p => hitCount (q :: rest) p) =
        grid.map (fun p => hitCount rest p + if q = p then 1 else 0) := by
      apply List.map_congr_left
      intro p _
      rw [hitCount_cons]
    rw [hfun, sum_map_add_nat, ih (fun p hp => hsub p (List.mem_cons_of_mem _ hp)),
      sum_map_indicator,
      hitCount_eq_one_of_nodup hnd (hsub q (List.mem_cons_self _ _))]
    simp [Nat.add_comm]

theorem maskSum_maskOf (H W : Nat) (pts : List (Nat × Nat))
    (hb : ∀ p ∈ pts, p.1 < H ∧ p.2 < W) :
    maskSum (maskOf H W pts) = pts.length := by
  have hgrid : maskSum (maskOf H W pts) =
      ((gridPositions H W).map (fun p => hitCount pts p)).sum := by
    simp only [maskSum, maskOf, gridPositions_eq_flatMap, List.map_flatMap,
      sum_flatMap_nat, List.map_map]
    apply congrArg List.sum
    apply List.map_congr_left
    intro r _
    simp [Function.comp_def]
  rw [hgrid]
  exact sum_counts_eq_length (nodup_gridPositions H W)
    (fun p hp => mem_gridPositions.mpr (hb p hp))

theorem maskEntry_maskOf {H W r c : Nat} (pts : List (Nat × Nat))
    (hr : r < H) (hc : c < W) :
    maskEntry (maskOf H W pts) r c = hitCount pts (r, c) := by
  have hrow : (maskOf H W pts).getD r [] =
      (List.range W).map (fun c => hitCount pts (r, c)) := by
    rw [List.getD_eq_getElem?_getD, maskOf, List.getElem?_map,
      List.getElem?_range hr]
    simp
  rw [maskEntry, hrow, List.getD_eq_getElem?_getD, List.getElem?_map,
    List.getElem?_range hc]
  simp

theorem maskNonzero_perm {H W : Nat} {pts : List (Nat × Nat)}
    (hnd : pts.Nodup) (hb : ∀ p ∈ pts, p.1 < H ∧ p.2 < W) :
    (maskNonzero H W (maskOf H W pts)).Perm pts := by
  unfold maskNonzero
  refine (List.perm_ext_iff_of_nodup
    ((nodup_gridPositions H W).filter _) hnd).mpr ?_
  intro p
  simp only [List.mem_filter, mem_gridPositions, decide_eq_true_eq]
  constructor
  · rintro ⟨⟨hr, hc⟩, hpos⟩
    rw [maskEntry_maskOf pts hr hc] at hpos
    exact hitCount_pos_iff.mp (by simpa using hpos)
  · intro hp
    obtain ⟨hr, hc⟩ := hb p hp
    refine ⟨⟨hr, hc⟩, ?_⟩
    rw [maskEntry_maskOf pts hr hc]
    simpa using hitCount_pos_iff.mpr hp

/-- The rational number `num / den`, as the fractions of the sampling API
are modelled by an explicit numerator and positive denominator. -/
def fracVal (num : Int) (den : Nat) : ℚ := (num : ℚ) / (den : ℚ)

/-- Rounding of `num / den` (for `den > 0`) to the nearest integer,
`round x = ⌊x + 1/2⌋`, computed with integer floor division. -/
def ratRound (num : Int) (den : Nat) : Int :=
  (2 * num + den) / (2 * (den : Int))

theorem ratRound_eq (num : Int) {den : Nat} (hden : 0 < den) :
    ratRound num den = round (fracVal num den) := by
  have hden' : ((den : ℚ) : ℚ) ≠ 0 := by
    exact_mod_cast Nat.pos_iff_ne_zero.mp hden
  have hval : fracVal num den + 1 / 2 =
      ((2 * num + den : ℤ) : ℚ) / ((2 * den : ℕ) : ℚ) := by
    rw [fracVal]
    push_cast
    field_simp
    ring
  rw [round_eq, hval, Rat.floor_intCast_div_natCast, ratRound]
  push_cast
  rfl

theorem fracVal_neg_iff {num : Int} {den : Nat} (hden : 0 < den) :
    fracVal num den < 0 ↔ num < 0 := by
  have hd : (0 : ℚ) < (den : ℚ) := by exact_mod_cast hden
  rw [fracVal, div_neg_iff]
  constructor
  · rintro (⟨_, hneg⟩ | ⟨hn, _⟩)
    · linarith
    · exact_mod_cast hn
  · intro hn
    exact Or.inr ⟨by exact_mod_cast hn, hd⟩

theorem fracVal_gt_one_iff {num : Int} {den : Nat} (hden : 0 < den) :
    1 < fracVal num den ↔ (den : Int) < num := by
  have hd : (0 : ℚ) < (den : ℚ) := by exact_mod_cast hden
  rw [fracVal, lt_div_iff₀ hd, one_mul]
  exact_mod_cast Iff.rfl

/-- Modelled from the spec: the `amount` parameter of `BlockSamplingTask`
(§4.4) — either an absolute integer count or a fraction (`num / den`) of
the spatial positions. -/
inductive Amount where
  | abs (n : Int)
  | frac (num : Int) (den : Nat)
  deriving DecidableEq, Repr

/-- Modelled from the spec: resolving `amount` to an absolute signed count
(§4.4 step 2) — a fraction is rounded over the `H·W` spatial positions:
`round(H·W·amount)`. -/
def resolveAmount (a : Amount) (H W : Nat) : Int :=
  match a with
  | .abs n => n
  | .frac num den => ratRound (num * (H * W)) den

/-- The outputs of one sampling-task execution: the sampled origins (in
selection order), the covered pixels after block expansion (sample-major),
and the counting sampling mask. -/
structure SamplingResult where
  points : List (Nat × Nat)
  covered : List (Nat × Nat)
  mask : List (List Nat)
  deriving DecidableEq, Repr

/-- Modelled from the spec: `BlockGrid` (§3) — the pixels of the h×w block
anchored top-left at origin `p`, row-major. -/
def blockCover (h w : Nat) (p : Nat × Nat) : List (Nat × Nat) :=
  (List.range h).flatMap (fun i =>
    (List.range w).map (fun j => (p.1 + i, p.2 + j)))

theorem length_blockCover (h w : Nat) (p : Nat × Nat) :
    (blockCover h w p).length = h * w := by
  simp [blockCover, List.length_flatMap, Function.comp_def, List.map_const']

theorem length_flatMap_blockCover (h w : Nat) (pts : List (Nat × Nat)) :
    (pts.flatMap (blockCover h w)).length = pts.length * (h * w) := by
  rw [List.length_flatMap]
  have hconst : pts.map (List.length ∘ blockCover h w) =
      pts.map (fun _ => h * w) := by
    apply List.map_congr_left
    intro p _
    simp [Function.comp_def, length_blockCover]
  rw [hconst, List.map_const', List.sum_replicate, smul_eq_mul]

theorem mem_blockCover {h w : Nat} {p q : Nat × Nat}
    (hq : q ∈ blockCover h w p) :
    ∃ i < h, ∃ j < w, q = (p.1 + i, p.2 + j) := by
  simp only [blockCover, List.mem_flatMap, List.mem_map, List.mem_range] at hq
  obtain ⟨i, hi, j, hj, hqe⟩ := hq
  exact ⟨i, hi, j, hj, hqe.symm⟩

theorem blockCover_one (pts : List (Nat × Nat)) :
    pts.flatMap (blockCover 1 1) = pts := by
  induction pts with
  | nil => rfl
  | cons p t ih =>
    simp only [List.flatMap_cons, ih]
    rw [show blockCover 1 1 p = [p] from rfl]
    rfl

/-- Modelled from the spec: `BlockSamplingTask.execute` (§4.4) over a patch
with spatial extent `(H, W)`, using a fresh generator seeded by `seed`:
resolve `amount` to an absolute count; restrict valid origins to rows in
`[0, H−h]` and cols in `[0, W−w]`; draw the origins uniformly without
replacement; expand each origin to its block; record the counting mask.
Spec §4.4 lists "amount resolves to zero" as an error, but
`test_object_sampling_task` executes `amount=0` successfully and asserts
empty outputs, so here a zero amount succeeds and only a negative amount
fails; the uniform draw is unconditioned on labels, so only the spatial
extent matters for the drawn indices. -/
def blockExecute (H W : Nat) (amount : Amount) (h w : Nat) (seed : Nat) :
    Except String SamplingResult :=
  let n := resolveAmount amount H W
  if n < 0 then .error "negative amount of samples requested"
  else if H < h ∨ W < w then .error "sample size is larger than the array"
  else
    let origins := gridPositions (H - h + 1) (W - w + 1)
    if origins.length < n.toNat then
      .error "requested amount exceeds the available population"
    else
      let pts := (shuffle origins ⟨seed⟩).1.take n.toNat
      let covered := pts.flatMap (blockCover h w)
      .ok ⟨pts, covered, maskOf H W covered⟩

/-- Modelled from the spec: the sample origins of `GridSamplingTask` (§4.6)
— every `(i·sh, j·sw)` whose full h×w block fits in bounds, row-major. -/
def gridOrigins (H W h w sh sw : Nat) : List (Nat × Nat) :=
  if h ≤ H ∧ w ≤ W then
    (List.range ((H - h) / sh + 1)).flatMap (fun i =>
      (List.range ((W - w) / sw + 1)).map (fun j => (i * sh, j * sw)))
  else []

/-- Modelled from the spec: `GridSamplingTask.execute` (§4.6) — deterministic
(no seed); fails only for non-positive `sample_size`/`stride` or when no
valid origin exists; extracts every grid block and records the counting
mask (see `maskOf` for why overlap accumulates). -/
def gridExecute (H W h w sh sw : Nat) : Except String SamplingResult :=
  if h = 0 ∨ w = 0 ∨ sh = 0 ∨ sw = 0 then
    .error "sample size and stride must be positive"
  else if H < h ∨ W < w then .error "no valid sampling origin exists"
  else
    let pts := gridOrigins H W h w sh sw
    let covered := pts.flatMap (blockCover h w)
    .ok ⟨pts, covered, maskOf H W covered⟩

theorem covered_bounds {H W h w : Nat} (hh : h ≤ H) (hw : w ≤ W)
    {pts : List (Nat × Nat)}
    (hpts : ∀ p ∈ pts, p.1 ≤ H - h ∧ p.2 ≤ W - w) :
    ∀ q ∈ pts.flatMap (blockCover h w), q.1 < H ∧ q.2 < W := by
  intro q hq
  rw [List.mem_flatMap] at hq
  obtain ⟨p, hp, hqb⟩ := hq
  obtain ⟨i, hi, j, hj, hqe⟩ := mem_blockCover hqb
  obtain ⟨hp1, hp2⟩ := hpts p hp
  subst hqe
  exact ⟨by omega, by omega⟩

theorem blockExecute_ok_elim {H W : Nat} {a : Amount} {h w seed : Nat}
    {res : SamplingResult}
    (he : blockExecute H W a h w seed = .ok res) :
    h ≤ H ∧ w ≤ W ∧
    res.points =
      (shuffle (gridPositions (H - h + 1) (W - w + 1)) ⟨seed⟩).1.take
        (resolveAmount a H W).toNat ∧
    res.covered = res.points.flatMap (blockCover h w) ∧
    res.mask = maskOf H W res.covered := by
  simp only [blockExecute] at he
  split at he
  · simp at he
  · split at he
    · simp at he
    · rename_i hsize
      push_neg at hsize
      split at he
      · simp at he
      · simp only [Except.ok.injEq] at he
        refine ⟨hsize.1, hsize.2, ?_, ?_, ?_⟩ <;> rw [← he]

theorem blockExecute_points_bounds {H W : Nat} {a : Amount} {h w seed : Nat}
    {res : SamplingResult}
    (he : blockExecute H W a h w seed = .ok res) :
    ∀ p ∈ res.points, p.1 ≤ H - h ∧ p.2 ≤ W - w := by
  obtain ⟨_, _, hpts, _, _⟩ := blockExecute_ok_elim he
  intro p hp
  rw [hpts] at hp
  have hmem := shuffle_mem _ (List.take_subset _ _ hp)
  rw [mem_gridPositions] at hmem
  omega

theorem blockExecute_points_nodup {H W : Nat} {a : Amount} {h w seed : Nat}
    {res : SamplingResult}
    (he : blockExecute H W a h w seed = .ok res) : res.points.Nodup := by
  obtain ⟨_, _, hpts, _, _⟩ := blockExecute_ok_elim he
  rw [hpts]
  exact (shuffle_nodup _ (nodup_gridPositions _ _)).sublist
    (List.take_sublist _ _)

/-- **C4 (amended)**: `BlockSamplingTask` execution fails whenever `amount`
resolves to a negative count (and writes nothing, returning an error), but
an `amount` resolving to zero is accepted: with a valid sample size the
execution succeeds and writes empty output features (zero sampled points,
zero covered pixels, an all-zero mask), as `test_object_sampling_task`
asserts for `amount=0`. -/
theorem blockExecute_amount_validation (H W h w : Nat) (a : Amount)
    (seed : Nat) :
    (resolveAmount a H W < 0 →
      ∃ e, blockExecute H W a h w seed = .error e) ∧
    (resolveAmount a H W = 0 → h ≤ H → w ≤ W →
      ∃ r, blockExecute H W a h w seed = .ok r ∧ r.points = [] ∧
        r.covered = [] ∧ maskSum r.mask = 0) := by
  constructor
  · intro hneg
    exact ⟨"negative amount of samples requested",
      by simp [blockExecute, if_pos hneg]⟩
  · intro h0 hh hw
    refine ⟨⟨[], [], maskOf H W []⟩, ?_, rfl, rfl, ?_⟩
    · simp [blockExecute, h0, Nat.not_lt.mpr hh, Nat.not_lt.mpr hw]
    · rw [maskSum_maskOf H W [] (fun p hp => absurd hp (List.not_mem_nil p))]
      rfl

/-- Witness for the amended C4: a 2×2 patch with an amount of −1 (fails) and
an amount of 0 (succeeds with empty outputs). -/
theorem blockExecute_amount_validation_witness :
    (resolveAmount (Amount.abs (-1)) 2 2 < 0 ∧
      ∃ e, blockExecute 2 2 (Amount.abs (-1)) 1 1 0 = .error e) ∧
    (resolveAmount (Amount.abs 0) 2 2 = 0 ∧ 1 ≤ 2 ∧ 1 ≤ 2 ∧
      ∃ r, blockExecute 2 2 (Amount.abs 0) 1 1 0 = .ok r ∧ r.points = [] ∧
        r.covered = [] ∧ maskSum r.mask = 0) :=
  ⟨⟨by decide,
      (blockExecute_amount_validation 2 2 1 1 (Amount.abs (-1)) 0).1
        (by decide)⟩,
    ⟨by decide, by decide, by decide,
      (blockExecute_amount_validation 2 2 1 1 (Amount.abs 0) 0).2
        (by decide) (by decide) (by decide)⟩⟩

/-- Counterexample to C4 as stated: an `amount` of 0 does **not** make
`BlockSamplingTask` execution fail — it succeeds and writes empty output
features, exactly as `test_object_sampling_task` asserts. -/
theorem blockExecute_zero_amount_counterexample :
    resolveAmount (Amount.abs 0) 2 2 = 0 ∧
    (blockExecute 2 2 (Amount.abs 0) 1 1 0).toOption.map
      (fun r => r.points.length) = some 0 :=
  ⟨rfl, rfl⟩

theorem gridExecute_ok_elim {H W h w sh sw : Nat} {res : SamplingResult}
    (he : gridExecute H W h w sh sw = .ok res) :
    h ≤ H ∧ w ≤ W ∧
    res.points = gridOrigins H W h w sh sw ∧
    res.covered = res.points.flatMap (blockCover h w) ∧
    res.mask = maskOf H W res.covered := by
  simp only [gridExecute] at he
  split at he
  · simp at he
  · split at he
    · simp at he
    · rename_i hsize
      push_neg at hsize
      simp only [Except.ok.injEq] at he
      refine ⟨hsize.1, hsize.2, ?_, ?_, ?_⟩ <;> rw [← he]

theorem gridOrigins_bounds {H W h w sh sw : Nat} {p : Nat × Nat}
    (hp : p ∈ gridOrigins H W h w sh sw) :
    p.1 ≤ H - h ∧ p.2 ≤ W - w := by
  rw [gridOrigins] at hp
  split at hp
  · simp only [List.mem_flatMap, List.mem_map, List.mem_range] at hp
    obtain ⟨i, hi, j, hj, hpe⟩ := hp
    subst hpe
    constructor
    · calc i * sh ≤ ((H - h) / sh) * sh :=
            Nat.mul_le_mul_right sh (Nat.lt_succ_iff.mp hi)
        _ ≤ H - h := Nat.div_mul_le_self _ _
    · calc j * sw ≤ ((W - w) / sw) * sw :=
            Nat.mul_le_mul_right sw (Nat.lt_succ_iff.mp hj)
        _ ≤ W - w := Nat.div_mul_le_self _ _
  · simp at hp

theorem gridExecute_strides_pos {H W h w sh sw : Nat} {res : SamplingResult}
    (he : gridExecute H W h w sh sw = .ok res) :
    0 < h ∧ 0 < w ∧ 0 < sh ∧ 0 < sw := by
  simp only [gridExecute] at he
  split at he
  · simp at he
  · rename_i hpos
    push_neg at hpos
    obtain ⟨h1, h2, h3, h4⟩ := hpos
    exact ⟨Nat.pos_of_ne_zero h1, Nat.pos_of_ne_zero h2,
      Nat.pos_of_ne_zero h3, Nat.pos_of_ne_zero h4⟩

/-- **C3 (amended)**: the `GridSamplingTask` sampling mask accumulates
per-block coverage instead of taking a union counted once: on every
successful execution its total equals `N·h·w` (`N` = number of sampled
blocks), exactly as `test_grid_sampling_task` asserts — also when blocks
overlap (stride < block size), where this exceeds the number of distinct
covered pixels. -/
theorem gridExecute_mask_total (H W h w sh sw : Nat) (res : SamplingResult)
    (he : gridExecute H W h w sh sw = .ok res) :
    maskSum res.mask = res.points.length * (h * w) ∧
    res.covered.length = res.points.length * (h * w) := by
  obtain ⟨hh, hw, hpts, hcov, hmask⟩ := gridExecute_ok_elim he
  have hb : ∀ q ∈ res.covered, q.1 < H ∧ q.2 < W := by
    rw [hcov]
    exact covered_bounds hh hw
      (fun p hp => gridOrigins_bounds (hpts ▸ hp))
  constructor
  · rw [hmask, maskSum_maskOf H W res.covered hb, hcov,
      length_flatMap_blockCover]
  · rw [hcov, length_flatMap_blockCover]

/-- Witness for the amended C3: the overlapping grid of 2×2 blocks at
stride (1,1) over a 3×3 raster (4 blocks, mask total 16). -/
theorem gridExecute_mask_total_witness :
    ∃ r, gridExecute 3 3 2 2 1 1 = .ok r ∧
      maskSum r.mask = r.points.length * (2 * 2) ∧
      r.covered.length = r.points.length * (2 * 2) := by
  have hg : gridExecute 3 3 2 2 1 1 = .ok ⟨gridOrigins 3 3 2 2 1 1,
      (gridOrigins 3 3 2 2 1 1).flatMap (blockCover 2 2),
      maskOf 3 3 ((gridOrigins 3 3 2 2 1 1).flatMap (blockCover 2 2))⟩ := rfl
  exact ⟨_, hg, gridExecute_mask_total 3 3 2 2 1 1 _ hg⟩

/-- Counterexample to C3 as stated: with overlapping blocks (stride (1,1) <
block size (2,2) on a 3×3 raster) the mask total is 16 = N·h·w, not the
number of distinct pixels covered (9) — overlap is accumulated, not counted
once. -/
theorem gridExecute_mask_overlap_counterexample :
    (gridExecute 3 3 2 2 1 1).toOption.map (fun r => maskSum r.mask) =
      some 16 ∧
    (gridExecute 3 3 2 2 1 1).toOption.map
      (fun r => r.covered.dedup.length) = some 9 ∧
    (16 : Nat) ≠ 9 :=
  ⟨rfl, rfl, by decide⟩

/-- Modelled from the spec: the `fraction` parameter of
`FractionSamplingTask` (§4.5) — a single scalar, a mapping from class value
to per-class fraction, or any unsupported payload passed by the caller
(e.g. the tuple of `test_fraction_sampling_errors`); each scalar is given
as numerator and positive denominator. -/
inductive FractionSpec where
  | scalar (num : Int) (den : Nat)
  | mapping (l : List (Int × Int × Nat))
  | other
  deriving DecidableEq, Repr

/-- Modelled from the spec: construction-time validation of `fraction`
(§4.5) — it must be a scalar or a mapping of scalars, no fraction may be
negative, and without replacement no fraction may exceed 1.  Depends only
on the constructor arguments, never on patch data. -/
def validateFraction (f : FractionSpec) (replace : Bool) :
    Except String Unit :=
  match f with
  | .other => .error "fraction must be a number or a mapping of numbers"
  | .scalar num den =>
    if num < 0 then .error "fraction must not be negative"
    else if (den : Int) < num ∧ replace = false then
      .error "fraction must be at most 1 when sampling without replacement"
    else .ok ()
  | .mapping l =>
    if l.any (fun e => e.2.1 < 0) then .error "fraction must not be negative"
    else if l.any (fun e => (e.2.2 : Int) < e.2.1) ∧ replace = false then
      .error "fraction must be at most 1 when sampling without replacement"
    else .ok ()

/-- Modelled from the spec: a constructed `FractionSamplingTask` (§4.5). -/
structure FractionTask where
  fraction : FractionSpec
  replace : Bool
  exclude : List Int
  deriving DecidableEq, Repr

/-- Modelled from the spec: `FractionSamplingTask.__init__` — runs the
fraction validation at construction time, before any patch or label data
exists, and only then produces the task. -/
def mkFractionTask (f : FractionSpec) (replace : Bool) (exclude : List Int) :
    Except String FractionTask :=
  match validateFraction f replace with
  | .error e => .error e
  | .ok _ => .ok ⟨f, replace, exclude⟩

/-- Insert an integer into an ascending list, keeping it sorted. -/
def insertSorted (x : Int) : List Int → List Int
  | [] => [x]
  | y :: t => if x ≤ y then x :: y :: t else y :: insertSorted x t

/-- Sort a list of integers ascending (insertion sort): the model of the
ascending order of `np.unique`. -/
def sortInts (l : List Int) : List Int := l.foldr insertSorted []

theorem insertSorted_perm (x : Int) (l : List Int) :
    (insertSorted x l).Perm (x :: l) := by
  induction l with
  | nil => exact List.Perm.refl _
  | cons y t ih =>
    rw [insertSorted]
    split
    · exact List.Perm.refl _
    · exact (ih.cons y).trans (List.Perm.swap _ _ _)

theorem sortInts_perm (l : List Int) : (sortInts l).Perm l := by
  induction l with
  | nil => exact List.Perm.refl _
  | cons x t ih =>
    exact (insertSorted_perm x (sortInts t)).trans (ih.cons x)

/-- The distinct class values present in a 2D label array, ascending (the
model of `np.unique` over the label raster). -/
def presentValues (labels : NDArray) : List Int :=
  sortInts (((gridPositions labels.height labels.width).map
    (fun p => labels.at2 p.1 p.2)).dedup)

theorem nodup_presentValues (labels : NDArray) :
    (presentValues labels).Nodup :=
  (sortInts_perm _).nodup_iff.mpr (List.nodup_dedup _)

theorem mem_presentValues {labels : NDArray} {v : Int} :
    v ∈ presentValues labels ↔ positionsOf labels v ≠ [] := by
  rw [presentValues, (sortInts_perm _).mem_iff, List.mem_dedup]
  constructor
  · intro hv
    rw [List.mem_map] at hv
    obtain ⟨p, hp, hpe⟩ := hv
    intro hcontra
    have hmem : p ∈ positionsOf labels v :=
      mem_positionsOf.mpr ⟨mem_gridPositions.mp hp, hpe⟩
    rw [hcontra] at hmem
    exact List.not_mem_nil p hmem
  · intro hne
    obtain ⟨p, hp⟩ := List.exists_mem_of_ne_nil _ hne
    obtain ⟨hgrid, hlab⟩ := mem_positionsOf.mp hp
    exact List.mem_map.mpr ⟨p, mem_gridPositions.mpr hgrid, hlab⟩

/-- Modelled from the spec: the per-class requested counts of
`FractionSamplingTask.execute` (§4.5) — `round(population · fraction)` for
every class present in the label array and not excluded; with a mapping
fraction, only classes that are both present and listed are drawn (a class
listed but absent is not an error; exclusion wins over the mapping). -/
def fractionCounts (task : FractionTask) (labels : NDArray) :
    List (Int × Nat) :=
  match task.fraction with
  | .scalar num den =>
    ((presentValues labels).filter (fun v => v ∉ task.exclude)).map
      (fun v =>
        (v, (ratRound ((positionsOf labels v).length * num) den).toNat))
  | .mapping l =>
    (l.filter (fun e =>
        e.1 ∈ presentValues labels ∧ e.1 ∉ task.exclude)).map
      (fun e =>
        (e.1, (ratRound ((positionsOf labels e.1).length * e.2.1) e.2.2).toNat))
  | .other => []

/-- Modelled from the spec: `FractionSamplingTask.execute` (§4.5) with a
fresh generator seeded by `seed` — draw the per-class counts through the
stratified sampler of §4.1, then expand blocks and record the counting
mask exactly as `BlockSamplingTask` does (§4.4 steps 3–5). -/
def fractionExecute (task : FractionTask) (labels : NDArray) (h w : Nat)
    (seed : Nat) : Except String SamplingResult :=
  match sampleByValuesGo labels task.replace (fractionCounts task labels)
      ⟨seed⟩ with
  | .error e => .error e
  | .ok (pts, _) =>
    let covered := pts.flatMap (blockCover h w)
    .ok ⟨pts, covered, maskOf labels.height labels.width covered⟩

/-- **C2 (amended)**: both sampling tasks are deterministic functions of
their inputs and seed — running twice with the same seed on equal inputs
gives bit-identical outputs — and a different seed *can* change the
sampling mask (it does on the concrete inputs exhibited here), but it is
not guaranteed to differ: see the counterexample where two different seeds
give identical masks. -/
theorem sampling_seed_reproducibility :
    (∀ H W a h w seed,
      blockExecute H W a h w seed = blockExecute H W a h w seed) ∧
    (∀ task labels h w seed,
      fractionExecute task labels h w seed =
        fractionExecute task labels h w seed) ∧
    (∃ H W a s₁ s₂ r₁ r₂, s₁ ≠ s₂ ∧
      blockExecute H W a 1 1 s₁ = .ok r₁ ∧
      blockExecute H W a 1 1 s₂ = .ok r₂ ∧ r₁.mask ≠ r₂.mask) ∧
    (∃ task labels s₁ s₂ r₁ r₂, s₁ ≠ s₂ ∧
      fractionExecute task labels 1 1 s₁ = .ok r₁ ∧
      fractionExecute task labels 1 1 s₂ = .ok r₂ ∧ r₁.mask ≠ r₂.mask) := by
  refine ⟨fun _ _ _ _ _ _ => rfl, fun _ _ _ _ _ => rfl, ?_, ?_⟩
  · exact ⟨1, 2, Amount.abs 1, 0, 1, ⟨[(0, 1)], [(0, 1)], [[0, 1]]⟩,
      ⟨[(0, 0)], [(0, 0)], [[1, 0]]⟩, by decide, rfl, rfl, by decide⟩
  · exact ⟨⟨.scalar 1 2, false, []⟩, ⟨[1, 2], [7, 7]⟩, 0, 1,
      ⟨[(0, 1)], [(0, 1)], [[0, 1]]⟩, ⟨[(0, 0)], [(0, 0)], [[1, 0]]⟩,
      by decide, rfl, rfl, by decide⟩

/-- Counterexample to C2 as stated: on a 1×1 patch with one requested
sample, two different seeds produce completely identical outputs — the
sampling mask does not differ in any entry. -/
theorem sampling_different_seed_counterexample :
    (0 : Nat) ≠ 1 ∧
    blockExecute 1 1 (Amount.abs 1) 1 1 0 =
      blockExecute 1 1 (Amount.abs 1) 1 1 1 :=
  ⟨by decide, rfl⟩

/-- **C6**: `FractionSamplingTask` construction fails — before any patch or
label data exists, since `mkFractionTask` never receives any — whenever the
fraction is neither a scalar nor a mapping, or any supplied fraction is
negative, or any fraction exceeds 1 while `replace` is false. -/
theorem mkFractionTask_validation (f : FractionSpec) (replace : Bool)
    (exclude : List Int) :
    (f = .other → ∃ e, mkFractionTask f replace exclude = .error e) ∧
    (∀ num den, f = .scalar num den → 0 < den → fracVal num den < 0 →
      ∃ e, mkFractionTask f replace exclude = .error e) ∧
    (∀ num den, f = .scalar num den → 0 < den → 1 < fracVal num den →
      replace = false → ∃ e, mkFractionTask f replace exclude = .error e) ∧
    (∀ l v num den, f = .mapping l → (v, num, den) ∈ l → 0 < den →
      fracVal num den < 0 →
      ∃ e, mkFractionTask f replace exclude = .error e) ∧
    (∀ l v num den, f = .mapping l → (v, num, den) ∈ l → 0 < den →
      1 < fracVal num den → replace = false →
      ∃ e, mkFractionTask f replace exclude = .error e) := by
  refine ⟨?_, ?_, ?_, ?_, ?_⟩
  · rintro rfl
    exact ⟨_, rfl⟩
  · rintro num den rfl hden hneg
    rw [fracVal_neg_iff hden] at hneg
    exact ⟨"fraction must not be negative",
      by simp [mkFractionTask, validateFraction, hneg]⟩
  · rintro num den rfl hden hgt hrep
    subst hrep
    rw [fracVal_gt_one_iff hden] at hgt
    by_cases hneg : num < 0
    · exact ⟨"fraction must not be negative",
        by simp [mkFractionTask, validateFraction, hneg]⟩
    · exact ⟨"fraction must be at most 1 when sampling without replacement",
        by simp [mkFractionTask, validateFraction, hneg, hgt]⟩
  · rintro l v num den rfl hmem hden hneg
    rw [fracVal_neg_iff hden] at hneg
    have hany : l.any (fun e => e.2.1 < 0) = true :=
      List.any_eq_true.mpr ⟨(v, num, den), hmem, by simpa using hneg⟩
    exact ⟨"fraction must not be negative",
      by simp [mkFractionTask, validateFraction, hany]⟩
  · rintro l v num den rfl hmem hden hgt hrep
    subst hrep
    rw [fracVal_gt_one_iff hden] at hgt
    by_cases hany : l.any (fun e => e.2.1 < 0) = true
    · exact ⟨"fraction must not be negative",
        by simp [mkFractionTask, validateFraction, hany]⟩
    · have hany2 : l.any (fun e => (e.2.2 : Int) < e.2.1) = true :=
        List.any_eq_true.mpr ⟨(v, num, den), hmem, by simpa using hgt⟩
      exact ⟨"fraction must be at most 1 when sampling without replacement",
        by simp [mkFractionTask, validateFraction, hany, hany2]⟩

/-- Witness for C6 at the five concrete constructions of
`test_fraction_sampling_errors`: a scalar of 2 without replacement, a
scalar of −1/2 with replacement, a mapping containing 6/5 without
replacement, a mapping containing −2/5 with replacement, and a tuple
(unsupported payload). -/
theorem mkFractionTask_validation_witness :
    (∃ e, mkFractionTask .other true [] = .error e) ∧
    ((0 : Nat) < 2 ∧ fracVal (-1) 2 < 0 ∧
      ∃ e, mkFractionTask (.scalar (-1) 2) true [] = .error e) ∧
    ((0 : Nat) < 1 ∧ 1 < fracVal 2 1 ∧
      ∃ e, mkFractionTask (.scalar 2 1) false [] = .error e) ∧
    ((3, -2, 5) ∈ [((1 : Int), (1 : Int), (2 : Nat)), (3, -2, 5), (5, 6, 5)] ∧
      (0 : Nat) < 5 ∧ fracVal (-2) 5 < 0 ∧
      ∃ e, mkFractionTask
        (.mapping [(1, 1, 2), (3, -2, 5), (5, 6, 5)]) true [] = .error e) ∧
    ((5, 6, 5) ∈ [((1 : Int), (1 : Int), (2 : Nat)), (3, 2, 5), (5, 6, 5)] ∧
      (0 : Nat) < 5 ∧ 1 < fracVal 6 5 ∧
      ∃ e, mkFractionTask
        (.mapping [(1, 1, 2), (3, 2, 5), (5, 6, 5)]) false [] = .error e) :=
  ⟨(mkFractionTask_validation .other true []).1 rfl,
    ⟨by decide, by norm_num [fracVal],
      (mkFractionTask_validation (.scalar (-1) 2) true []).2.1 (-1) 2 rfl
        (by decide) (by norm_num [fracVal])⟩,
    ⟨by decide, by norm_num [fracVal],
      (mkFractionTask_validation (.scalar 2 1) false []).2.2.1 2 1 rfl
        (by decide) (by norm_num [fracVal]) rfl⟩,
    ⟨by decide, by decide, by norm_num [fracVal],
      (mkFractionTask_validation (.mapping [(1, 1, 2), (3, -2, 5), (5, 6, 5)])
          true []).2.2.2.1 _ 3 (-2) 5 rfl (by decide) (by decide)
        (by norm_num [fracVal])⟩,
    ⟨by decide, by decide, by norm_num [fracVal],
      (mkFractionTask_validation (.mapping [(1, 1, 2), (3, 2, 5), (5, 6, 5)])
          false []).2.2.2.2 _ 5 6 5 rfl (by decide) (by decide)
        (by norm_num [fracVal]) rfl⟩⟩

theorem fractionExecute_ok_elim {task : FractionTask} {labels : NDArray}
    {h w seed : Nat} {res : SamplingResult}
    (he : fractionExecute task labels h w seed = .ok res) :
    ∃ s', sampleByValuesGo labels task.replace (fractionCounts task labels)
        ⟨seed⟩ = .ok (res.points, s') ∧
      res.covered = res.points.flatMap (blockCover h w) ∧
      res.mask = maskOf labels.height labels.width res.covered := by
  simp only [fractionExecute] at he
  cases hg : sampleByValuesGo labels task.replace (fractionCounts task labels)
      ⟨seed⟩ with
  | error e => rw [hg] at he; simp at he
  | ok pr =>
    obtain ⟨pts, s'⟩ := pr
    rw [hg] at he
    simp only [Except.ok.injEq] at he
    refine ⟨s', ?_, ?_, ?_⟩
    · rw [← he]
    · rw [← he]
    · rw [← he]

theorem fractionCounts_scalar_keys (num : Int) (den : Nat) (rep : Bool)
    (exclude : List Int) (labels : NDArray) :
    (fractionCounts ⟨.scalar num den, rep, exclude⟩ labels).map Prod.fst =
      (presentValues labels).filter (fun v => v ∉ exclude) := by
  simp [fractionCounts, List.map_map, Function.comp_def]

theorem fractionCounts_scalar_keys_nodup (num : Int) (den : Nat) (rep : Bool)
    (exclude : List Int) (labels : NDArray) :
    ((fractionCounts ⟨.scalar num den, rep, exclude⟩ labels).map
      Prod.fst).Nodup := by
  rw [fractionCounts_scalar_keys]
  exact (nodup_presentValues labels).filter _

theorem fractionCounts_scalar_mem {num : Int} {den : Nat} {rep : Bool}
    {exclude : List Int} {labels : NDArray} {v : Int}
    (hpres : positionsOf labels v ≠ []) (hexc : v ∉ exclude) :
    (v, (ratRound ((positionsOf labels v).length * num) den).toNat) ∈
      fractionCounts ⟨.scalar num den, rep, exclude⟩ labels := by
  simp only [fractionCounts, List.mem_map, List.mem_filter,
    decide_eq_true_eq]
  exact ⟨v, ⟨mem_presentValues.mpr hpres, hexc⟩, rfl⟩

theorem ratRound_nonneg {num : Int} {den : Nat} (hnum : 0 ≤ num)
    (hden : 0 < den) : 0 ≤ ratRound num den := by
  rw [ratRound_eq num hden, round_eq]
  rw [Int.le_floor]
  have h0 : (0 : ℚ) ≤ fracVal num den := by
    rw [fracVal]
    apply div_nonneg
    · exact_mod_cast hnum
    · exact_mod_cast Nat.zero_le den
  push_cast
  linarith

theorem ratRound_scale (pop : Nat) (num : Int) {den : Nat} (hden : 0 < den) :
    ratRound ((pop : Int) * num) den = round ((pop : ℚ) * fracVal num den) := by
  rw [ratRound_eq _ hden]
  congr 1
  rw [fracVal, fracVal]
  push_cast
  ring

/-- **C7**: with a scalar fraction `num/den`, every class present in the
label array and not excluded is sampled `round(population · fraction)`
times (within the claimed tolerance of 1 — the model draws that count
exactly), and every excluded class contributes exactly zero samples. -/
theorem fractionExecute_scalar_counts (labels : NDArray) (num : Int)
    (den : Nat) (exclude : List Int) (h w seed : Nat) (res : SamplingResult)
    (hden : 0 < den) (hnum : 0 ≤ num)
    (he : fractionExecute ⟨.scalar num den, false, exclude⟩ labels h w seed =
      .ok res) :
    (∀ v : Int, positionsOf labels v ≠ [] → v ∉ exclude →
      |(res.points.countP (fun p => labels.at2 p.1 p.2 == v) : Int) -
        round (((positionsOf labels v).length : ℚ) * fracVal num den)| ≤ 1) ∧
    (∀ v ∈ exclude,
      res.points.countP (fun p => labels.at2 p.1 p.2 == v) = 0) := by
  obtain ⟨s', hg, _, _⟩ := fractionExecute_ok_elim he
  constructor
  · intro v hpres hexc
    have hcnt := sampleByValuesGo_ok_countP
      (fractionCounts_scalar_keys_nodup num den false exclude labels) hg
      (v, (ratRound ((positionsOf labels v).length * num) den).toNat)
      (fractionCounts_scalar_mem hpres hexc)
    simp only at hcnt
    rw [hcnt]
    have hnn : 0 ≤ ratRound ((positionsOf labels v).length * num) den :=
      ratRound_nonneg (by positivity) hden
    rw [Int.toNat_of_nonneg hnn, ratRound_scale _ _ hden]
    simp
  · intro v hv
    apply List.countP_eq_zero.mpr
    intro p hp
    obtain ⟨vk, hvk, hmem⟩ := sampleByValuesGo_ok_mem hg p hp
    have hlab := positionsOf_label hmem
    have hkey : vk.1 ∈ (fractionCounts
        ⟨.scalar num den, false, exclude⟩ labels).map Prod.fst :=
      List.mem_map_of_mem Prod.fst hvk
    rw [fractionCounts_scalar_keys] at hkey
    have hnotex : vk.1 ∉ exclude := by
      have := List.mem_filter.mp hkey
      simpa using this.2
    have hne : vk.1 ≠ v := fun hc => hnotex (hc ▸ hv)
    simp [hlab, hne]

/-- Witness for C7 at a concrete input: labels `[[0, 0], [1, 1]]`, scalar
fraction 1/2, class 0 excluded, seed 0 — class 1 (population 2) receives
round(2·1/2) = 1 sample and class 0 receives none. -/
theorem fractionExecute_scalar_counts_witness :
    (0 : Nat) < 2 ∧ (0 : Int) ≤ 1 ∧
    positionsOf ⟨[2, 2], [0, 0, 1, 1]⟩ (1 : Int) ≠ [] ∧
    (1 : Int) ∉ ([0] : List Int) ∧ (0 : Int) ∈ ([0] : List Int) ∧
    fractionExecute ⟨.scalar 1 2, false, [0]⟩ ⟨[2, 2], [0, 0, 1, 1]⟩ 1 1 0 =
      .ok ⟨[(1, 1)], [(1, 1)], [[0, 0], [0, 1]]⟩ ∧
    |(([((1 : Nat), (1 : Nat))].countP
        (fun p => NDArray.at2 ⟨[2, 2], [0, 0, 1, 1]⟩ p.1 p.2 == 1) : Int)) -
      round (((positionsOf ⟨[2, 2], [0, 0, 1, 1]⟩ 1).length : ℚ) *
        fracVal 1 2)| ≤ 1 ∧
    [((1 : Nat), (1 : Nat))].countP
      (fun p => NDArray.at2 ⟨[2, 2], [0, 0, 1, 1]⟩ p.1 p.2 == 0) = 0 := by
  have he : fractionExecute ⟨.scalar 1 2, false, [0]⟩
      ⟨[2, 2], [0, 0, 1, 1]⟩ 1 1 0 =
      .ok ⟨[(1, 1)], [(1, 1)], [[0, 0], [0, 1]]⟩ := rfl
  have hc := fractionExecute_scalar_counts ⟨[2, 2], [0, 0, 1, 1]⟩ 1 2 [0]
    1 1 0 ⟨[(1, 1)], [(1, 1)], [[0, 0], [0, 1]]⟩ (by decide) (by decide) he
  exact ⟨by decide, by decide, by decide, by decide, by decide, he,
    hc.1 1 (by decide) (by decide), hc.2 0 (by decide)⟩

/-- The values of feature `f` (with `T` leading non-spatial slices, e.g.
time) extracted at the listed positions, slice-major then sample-major:
the model of a written sampled feature, and — applied to the mask-true
pixels — of a source feature restricted to the mask. -/
def extractValues (f : Nat → Nat → Nat → Int) (T : Nat)
    (pts : List (Nat × Nat)) : List Int :=
  (List.range T).flatMap (fun t => pts.map (fun p => f t p.1 p.2))

theorem extractValues_perm (f : Nat → Nat → Nat → Int) (T : Nat)
    {pts qs : List (Nat × Nat)} (hp : pts.Perm qs) :
    (extractValues f T pts).Perm (extractValues f T qs) := by
  unfold extractValues
  induction List.range T with
  | nil => simp
  | cons t ts ih =>
    simp only [List.flatMap_cons]
    exact (hp.map _).append ih

theorem mask_multiset_core {H W : Nat} {pts : List (Nat × Nat)}
    (hnd : pts.Nodup) (hb : ∀ p ∈ pts, p.1 < H ∧ p.2 < W)
    (T : Nat) (f : Nat → Nat → Nat → Int) :
    (extractValues f T pts : Multiset Int) =
      (extractValues f T (maskNonzero H W (maskOf H W pts)) : Multiset Int) :=
  Multiset.coe_eq_coe.mpr
    (extractValues_perm f T (maskNonzero_perm hnd hb).symm)

/-- **C10 (amended)**: after a successful `BlockSamplingTask` execution
with `sample_size = (1, 1)` (the task samples without replacement), or a
successful `FractionSamplingTask` execution with `sample_size = (1, 1)` and
`replace = False`, the multiset of any source feature's values over all
non-spatial slices restricted to the mask-true pixels equals the multiset
of values in the written sampled feature: the mask identifies exactly the
extracted pixels.  (The fraction dict's keys are pairwise distinct.) -/
theorem mask_describes_samples (H W : Nat) (a : Amount) (seed : Nat)
    (task : FractionTask) (labels : NDArray) (seed2 : Nat)
    (res res2 : SamplingResult) :
    (blockExecute H W a 1 1 seed = .ok res →
      ∀ T f, (extractValues f T res.points : Multiset Int) =
        (extractValues f T (maskNonzero H W res.mask) : Multiset Int)) ∧
    (task.replace = false →
      ((fractionCounts task labels).map Prod.fst).Nodup →
      fractionExecute task labels 1 1 seed2 = .ok res2 →
      ∀ T f, (extractValues f T res2.points : Multiset Int) =
        (extractValues f T
          (maskNonzero labels.height labels.width res2.mask) :
            Multiset Int)) := by
  constructor
  · intro he T f
    obtain ⟨hh, hw, _, hcov, hmask⟩ := blockExecute_ok_elim he
    have hbnd : ∀ p ∈ res.points, p.1 < H ∧ p.2 < W := by
      intro p hp
      have := blockExecute_points_bounds he p hp
      omega
    rw [hmask, hcov, blockCover_one]
    exact mask_multiset_core (blockExecute_points_nodup he) hbnd T f
  · intro hrep hnd he T f
    obtain ⟨s', hg, hcov, hmask⟩ := fractionExecute_ok_elim he
    rw [hrep] at hg
    have hbnd : ∀ p ∈ res2.points, p.1 < labels.height ∧ p.2 < labels.width := by
      intro p hp
      obtain ⟨vk, _, hmem⟩ := sampleByValuesGo_ok_mem hg p hp
      exact (mem_positionsOf.mp hmem).1
    rw [hmask, hcov, blockCover_one]
    exact mask_multiset_core (sampleByValuesGo_ok_nodup hnd hg) hbnd T f

/-- Witness for the amended C10 at concrete runs of both tasks (2×2 patch,
two uniform samples; labels `[[0, 0], [1, 1]]` with fraction 1/2 and class
0 excluded), with the feature `f t r c = t + 2·r + 3·c` over two slices. -/
theorem mask_describes_samples_witness :
    blockExecute 2 2 (Amount.abs 2) 1 1 0 =
      .ok ⟨[(0, 1), (1, 0)], [(0, 1), (1, 0)], [[0, 1], [1, 0]]⟩ ∧
    (extractValues (fun t r c => (t : Int) + 2 * r + 3 * c) 2
        [(0, 1), (1, 0)] : Multiset Int) =
      (extractValues (fun t r c => (t : Int) + 2 * r + 3 * c) 2
        (maskNonzero 2 2 [[0, 1], [1, 0]]) : Multiset Int) ∧
    (FractionTask.mk (.scalar 1 2) false [0]).replace = false ∧
    ((fractionCounts ⟨.scalar 1 2, false, [0]⟩
      ⟨[2, 2], [0, 0, 1, 1]⟩).map Prod.fst).Nodup ∧
    fractionExecute ⟨.scalar 1 2, false, [0]⟩ ⟨[2, 2], [0, 0, 1, 1]⟩ 1 1 0 =
      .ok ⟨[(1, 1)], [(1, 1)], [[0, 0], [0, 1]]⟩ ∧
    (extractValues (fun t r c => (t : Int) + 2 * r + 3 * c) 2
        [(1, 1)] : Multiset Int) =
      (extractValues (fun t r c => (t : Int) + 2 * r + 3 * c) 2
        (maskNonzero 2 2 [[0, 0], [0, 1]]) : Multiset Int) := by
  have hb : blockExecute 2 2 (Amount.abs 2) 1 1 0 =
      .ok ⟨[(0, 1), (1, 0)], [(0, 1), (1, 0)], [[0, 1], [1, 0]]⟩ := rfl
  have hf : fractionExecute ⟨.scalar 1 2, false, [0]⟩
      ⟨[2, 2], [0, 0, 1, 1]⟩ 1 1 0 =
      .ok ⟨[(1, 1)], [(1, 1)], [[0, 0], [0, 1]]⟩ := rfl
  have hm := mask_describes_samples 2 2 (Amount.abs 2) 0
    ⟨.scalar 1 2, false, [0]⟩ ⟨[2, 2], [0, 0, 1, 1]⟩ 0
    ⟨[(0, 1), (1, 0)], [(0, 1), (1, 0)], [[0, 1], [1, 0]]⟩
    ⟨[(1, 1)], [(1, 1)], [[0, 0], [0, 1]]⟩
  exact ⟨hb, hm.1 hb 2 (fun t r c => (t : Int) + 2 * r + 3 * c), rfl,
    by decide, hf,
    hm.2 rfl (by decide) hf 2 (fun t r c => (t : Int) + 2 * r + 3 * c)⟩

/-- Counterexample to C10 as stated: a `FractionSamplingTask` execution
**with replacement** (fraction 2 for class 5 on a 1×1 label array, a valid
construction since `replace=True` allows fractions above 1) samples the
single pixel twice, so the sampled feature holds its value twice while the
mask-true pixels hold it once — the multisets differ. -/
theorem mask_describes_samples_counterexample :
    (∃ t, mkFractionTask (.mapping [(5, 2, 1)]) true [] = .ok t) ∧
    (fractionExecute ⟨.mapping [(5, 2, 1)], true, []⟩ ⟨[1, 1], [5]⟩ 1 1
        0).toOption.map
      (fun r => extractValues (fun _ r c => (10 * r + c : Int)) 1 r.points) =
      some [0, 0] ∧
    (fractionExecute ⟨.mapping [(5, 2, 1)], true, []⟩ ⟨[1, 1], [5]⟩ 1 1
        0).toOption.map
      (fun r => extractValues (fun _ r c => (10 * r + c : Int)) 1
        (maskNonzero 1 1 r.mask)) = some [0] ∧
    (([0, 0] : List Int) : Multiset Int) ≠ (([0] : List Int) : Multiset Int) :=
  ⟨⟨⟨.mapping [(5, 2, 1)], true, []⟩, rfl⟩, rfl, rfl, by decide⟩
